import Mathlib

/-!
Verification development for the agent orchestration runtime of
microsoft/langchainjs-for-beginners.

The repository is a course: the orchestration loop itself is provided by the
external `createAgent` library and appears in the repository only through its
README fragments (src/05-agents/README.md) and the accompanying design
specification.  The one piece of runtime code present verbatim in the sources
is the retrieval tool handler (`retrievalTool`, src/unnamed/part_000, lines
534-553), which is embedded below from that source; the rest of the runtime
(message transcript, capability registry, budget manager, orchestration loop)
is modelled from the specification, as noted on each definition.
-/

namespace AgentRuntime

/-- Modelled from the spec (§3, Data Model): the role of one transcript
entry — `system`, `user`, `assistant` or `capability-result`. -/
inductive Role where
  | system
  | user
  | assistant
  | capabilityResult
deriving DecidableEq, Repr

/-- Modelled from the spec (§3): a `CapabilityCall` request emitted by the
model: `call_id` (unique within the run), `capability_name`, and structured
key/value `arguments`. -/
structure CapabilityCall where
  callId : Nat
  capabilityName : String
  arguments : List (String × String)
deriving DecidableEq, Repr

/-- Modelled from the spec (§3): one transcript `Message`, with `role`,
`content`, the ordered `capability_calls` of an assistant message, and the
`capability_call_ref` linking a capability-result back to its call. -/
structure Message where
  role : Role
  content : String
  capabilityCalls : List CapabilityCall
  capabilityCallRef : Option Nat
deriving DecidableEq, Repr

/-- Modelled from the spec (§3): a `Transcript` is an ordered sequence of
messages, mutated only by appends and by condensation's prefix replacement. -/
abbrev Transcript := List Message

/-- All `call_id`s of capability calls occurring in a transcript, in
transcript order. -/
def callIdsOf (t : Transcript) : List Nat :=
  t.foldr (fun m acc => m.capabilityCalls.map (·.callId) ++ acc) []

/-- All `capability_call_ref`s of messages in a transcript, in transcript
order. -/
def refIdsOf (t : Transcript) : List Nat :=
  t.foldr (fun m acc =>
    match m.capabilityCallRef with
    | some r => r :: acc
    | none => acc) []

/-- Boolean membership for lists of identifiers. -/
def memB (i : Nat) (l : List Nat) : Bool :=
  l.any (fun j => j == i)

/-- A call id is unanswered in `t` when no message of `t` carries it as its
`capability_call_ref`. -/
def unansweredIds (t : Transcript) : List Nat :=
  (callIdsOf t).filter (fun i => ! memB i (refIdsOf t))

/-- Modelled from the spec (§3/§4.2): a `Capability` — registry `name`, the
required argument fields of its `argument_schema`, and the executable
`handler` (text result or failure). -/
structure Capability where
  name : String
  requiredFields : List String
  handler : List (String × String) → Except String String

/-- Modelled from the spec (§4.2): the fields of the schema's required list
that are absent from the supplied arguments; `validate_arguments` fails with
`SchemaViolation` exactly when this list is nonempty. -/
def missingFields (required : List String) (args : List (String × String)) : List String :=
  required.filter (fun f => ! args.any (fun kv => kv.1 == f))

/-- Separator-joined string list, mirroring JavaScript `Array.join(sep)` as
used by the retrieval tool in src/unnamed/part_000. -/
def joinSep (sep : String) : List String → String
  | [] => ""
  | [x] => x
  | x :: y :: xs => x ++ sep ++ joinSep sep (y :: xs)

/-- A capability-result message carrying `content` and answering call `ref`. -/
def mkResult (content : String) (ref : Nat) : Message :=
  ⟨Role.capabilityResult, content, [], some ref⟩

/-- Modelled from the spec (§4.5/§7): execute one capability call against a
registry.  Resolution failure yields an `UnknownCapability` error result,
schema failure a `SchemaViolation` error result — both without running the
handler — and otherwise the handler runs exactly once.  Returns the
capability-result message together with the number of handler invocations
performed for this `call_id`. -/
def execCall (reg : List Capability) (c : CapabilityCall) : Message × Nat :=
  match reg.find? (fun cap => cap.name == c.capabilityName) with
  | none => (mkResult ("Error: UnknownCapability: " ++ c.capabilityName) c.callId, 0)
  | some cap =>
    match missingFields cap.requiredFields c.arguments with
    | [] =>
      match cap.handler c.arguments with
      | Except.error e =>
        (mkResult ("Error: CapabilityHandlerFailure: " ++ e) c.callId, 1)
      | Except.ok out => (mkResult out c.callId, 1)
    | f :: fs =>
      (mkResult ("Error: SchemaViolation: missing " ++ joinSep ", " (f :: fs)) c.callId, 0)

/-- Modelled from the spec (§4.5): execute the pending capability calls of one
assistant turn strictly in emission order, appending each result message to
the transcript as it is produced; also accumulates the handler invocation
count. -/
def execCalls (reg : List Capability) (t : Transcript) (cs : List CapabilityCall) :
    Transcript × Nat :=
  cs.foldl (fun acc c =>
    (acc.1 ++ [(execCall reg c).1], acc.2 + (execCall reg c).2)) (t, 0)

/-- The capability-result messages produced for a list of calls, one per call
in emission order. -/
def resultsOf (reg : List Capability) (cs : List CapabilityCall) : Transcript :=
  cs.map (fun c => (execCall reg c).1)

/-- A document as retrieved from the vector store: `metadata.source` and
`pageContent` (src/unnamed/part_000, the agentic-RAG knowledge base). -/
structure Doc where
  source : String
  pageContent : String
deriving DecidableEq, Repr

/-- Result formatting of `retrievalTool` (src/unnamed/part_000, lines
540-542): each retrieved document becomes a source-attributed entry
`[source]: pageContent`, joined with blank lines, in retrieval order. -/
def formatResults (results : List Doc) : String :=
  joinSep "\n\n" (results.map (fun d => "[" ++ d.source ++ "]: " ++ d.pageContent))

/-- The `retrievalTool` handler (src/unnamed/part_000, lines 534-545): run the
similarity search, format the results with sources, and fall back to the
literal "No relevant documents found." when the formatted string is empty
(the JavaScript `||` on the falsy empty string). -/
def retrievalHandler (search : String → List Doc) (query : String) : String :=
  let formattedResults := formatResults (search query)
  if formattedResults = "" then "No relevant documents found." else formattedResults

/-- The retrieval capability as registered by src/unnamed/part_000, lines
534-553: name `searchCompanyDocs`, a schema requiring the `query` string, and
the `retrievalHandler` behaviour over the ambient vector store `search`. -/
def retrievalTool (search : String → List Doc) : Capability :=
  { name := "searchCompanyDocs"
    requiredFields := ["query"]
    handler := fun args =>
      match args.find? (fun kv => kv.1 == "query") with
      | some kv => Except.ok (retrievalHandler search kv.2)
      | none => Except.error "missing query" }

/-- Modelled from the spec (§6, run_config): the trigger mode of the Context
Budget Manager, `AND` or `OR`. -/
inductive TriggerMode where
  | AND
  | OR
deriving DecidableEq, Repr

/-- Modelled from the spec (§4.4/§6): the budget trigger
`{tokens?, messages?, mode: AND|OR}`. -/
structure BudgetTrigger where
  tokens : Option Nat
  messages : Option Nat
  mode : TriggerMode
deriving DecidableEq, Repr

/-- Modelled from the spec (§4.1): `estimate_size()` — an opaque
token-equivalent size measure of the transcript; here the total content
length. -/
def estimateSize (t : Transcript) : Nat :=
  t.foldr (fun m acc => m.content.length + acc) 0

/-- Modelled from the spec (§4.4): the trigger condition — under `OR`,
any one of {token_count at or above `T`, message_count at or above `M`};
under `AND`, both.  An absent threshold never fires on its own under `OR`
and is vacuously met under `AND`. -/
def triggerHolds (tr : BudgetTrigger) (tok msgs : Nat) : Bool :=
  let tokHit := match tr.tokens with
    | some limit => limit ≤ tok
    | none => false
  let msgHit := match tr.messages with
    | some limit => limit ≤ msgs
    | none => false
  match tr.mode with
  | TriggerMode.OR => tokHit || msgHit
  | TriggerMode.AND =>
    (match tr.tokens with
     | some limit => decide (limit ≤ tok)
     | none => true) &&
    (match tr.messages with
     | some limit => decide (limit ≤ msgs)
     | none => true)

/-- Number of messages of the leading `system` message region (zero or one),
which condensation never touches (spec §4.4). -/
def sysCount (t : Transcript) : Nat :=
  match t with
  | [] => 0
  | m :: _ => if m.role = Role.system then 1 else 0

/-- Modelled from the spec (§4.4): the contiguous to-be-condensed prefix of
the transcript, excluding any leading `system` message and the last
`keep_count` messages. -/
def condensePfx (keep : Nat) (t : Transcript) : Transcript :=
  let body := t.drop (sysCount t)
  body.take (body.length - keep)

/-- Modelled from the spec (§4.4): the retained suffix — the last `keep_count`
messages following the to-be-condensed prefix. -/
def condenseSuffix (keep : Nat) (t : Transcript) : Transcript :=
  let body := t.drop (sysCount t)
  body.drop (body.length - keep)

/-- Modelled from the spec (§4.4): one condensation pass — replace the
to-be-condensed prefix with a single synthetic assistant-authored summary
message, preserving the leading `system` message and the retained suffix in
their original relative order; a no-op when the prefix is empty. -/
def condense (summarize : Transcript → String) (keep : Nat) (t : Transcript) : Transcript :=
  let pfx := condensePfx keep t
  if pfx = [] then t
  else
    t.take (sysCount t) ++
      (⟨Role.assistant, summarize pfx, [], none⟩ : Message) :: condenseSuffix keep t

/-- Some call in the to-be-condensed prefix is still unanswered in the whole
transcript (spec §4.4's deferral guard). -/
def pendingInPfx (keep : Nat) (t : Transcript) : Bool :=
  (callIdsOf (condensePfx keep t)).any (fun i => ! memB i (refIdsOf t))

/-- Modelled from the spec (§6): the run configuration — iteration cap,
budget trigger and retention count, registered capabilities, and the
condensation service. -/
structure RunConfig where
  iterationCap : Nat
  trigger : BudgetTrigger
  keepCount : Nat
  registry : List Capability
  summarize : Transcript → String

/-- Modelled from the spec (§4.4): the Context Budget Manager check run after
each completed loop iteration — condense when the trigger condition holds,
but defer by one iteration when a call in the to-be-condensed prefix is
unanswered. -/
def budgetCheck (cfg : RunConfig) (t : Transcript) : Transcript :=
  if triggerHolds cfg.trigger (estimateSize t) t.length then
    if pendingInPfx cfg.keepCount t then t
    else condense cfg.summarize cfg.keepCount t
  else t

/-- Modelled from the spec (§6): the model invocation service's reply — text
plus an ordered list of capability-call requests. -/
structure ModelResponse where
  content : String
  capabilityCalls : List CapabilityCall

/-- Modelled from the spec (§4.5/§7): the terminal status of a run — a final
answer, or abortion with `IterationLimitExceeded`. -/
inductive RunStatus where
  | completed (answer : String)
  | iterationLimitExceeded
deriving DecidableEq, Repr

/-- The observable outcome of a run: terminal status, final transcript, number
of planning iterations performed, total handler invocations, and the
transcript presented to the model at each `PLANNING` step. -/
structure RunOutcome where
  status : RunStatus
  transcript : Transcript
  iterationsUsed : Nat
  handlerInvocations : Nat
  planningTranscripts : List Transcript

/-- Modelled from the spec (§4.5): the orchestration loop.  Each iteration
presents the transcript to the model (`PLANNING`); zero capability calls end
the run with the content as final answer, otherwise the assistant message is
appended, its calls execute in emission order (`EXECUTING_CAPABILITIES`), the
Context Budget Manager check runs, and the loop re-plans.  The iteration cap
is enforced by the remaining-fuel argument: exhausting it aborts the run with
`IterationLimitExceeded`. -/
def runLoop (cfg : RunConfig) (modelFn : Transcript → ModelResponse) :
    Nat → Transcript → Nat → Nat → List Transcript → RunOutcome
  | 0, t, iters, hc, plans =>
    ⟨RunStatus.iterationLimitExceeded, t, iters, hc, plans.reverse⟩
  | fuel + 1, t, iters, hc, plans =>
    match (modelFn t).capabilityCalls with
    | [] =>
      ⟨RunStatus.completed (modelFn t).content,
        t ++ [⟨Role.assistant, (modelFn t).content, [], none⟩],
        iters + 1, hc, (t :: plans).reverse⟩
    | c :: cs =>
      runLoop cfg modelFn fuel
        (budgetCheck cfg
          (execCalls cfg.registry
            (t ++ [⟨Role.assistant, (modelFn t).content, c :: cs, none⟩]) (c :: cs)).1)
        (iters + 1)
        (hc + (execCalls cfg.registry
          (t ++ [⟨Role.assistant, (modelFn t).content, c :: cs, none⟩]) (c :: cs)).2)
        (t :: plans)

/-- Modelled from the spec (§4.6): run one agent to its terminal state from an
initial transcript, with fuel equal to the configured iteration cap. -/
def runAgent (cfg : RunConfig) (modelFn : Transcript → ModelResponse)
    (t0 : Transcript) : RunOutcome :=
  runLoop cfg modelFn cfg.iterationCap t0 0 0 []

/-- A plain user message. -/
def userMsg (s : String) : Message :=
  ⟨Role.user, s, [], none⟩

/-- A stub capability named `cap` whose handler always succeeds with `done`;
used to instantiate concrete runs. -/
def stubCap : Capability :=
  ⟨"cap", [], fun _ => Except.ok "done"⟩

/-- A trigger that never fires: no thresholds under `OR` semantics. -/
def noTrigger : BudgetTrigger :=
  ⟨none, none, TriggerMode.OR⟩

/-- A fresh call id for a transcript: one more than every id occurring in it. -/
def freshId (t : Transcript) : Nat :=
  (callIdsOf t ++ refIdsOf t).foldr max 0 + 1

/-- A model behaviour that requests one `cap` capability call with a fresh id
on every planning step — the adversary of Scenario E, which never stops
requesting capability calls. -/
def alwaysCallModel : Transcript → ModelResponse :=
  fun t => ⟨"thinking", [⟨freshId t, "cap", []⟩]⟩

/-- A model behaviour that never requests a capability. -/
def noCallModel : Transcript → ModelResponse :=
  fun _ => ⟨"direct answer", []⟩

/-- Scenario E configuration: iteration cap 3, no condensation, the stub
capability registered. -/
def cfgE : RunConfig :=
  ⟨3, noTrigger, 0, [stubCap], fun _ => "SUMMARY"⟩

/-- Pairing check relative to an already-processed prefix `pre`: each
capability-result message must reference a call id carried by exactly one
call in the messages before it and answered by no earlier result (spec §3's
transcript invariant, checked message by message). -/
def pairedOkAux : Transcript → Transcript → Bool
  | _, [] => true
  | pre, m :: rest =>
    (match m.role, m.capabilityCallRef with
     | Role.capabilityResult, some r =>
       ((callIdsOf pre).count r == 1) && ((refIdsOf pre).count r == 0)
     | Role.capabilityResult, none => false
     | _, _ => true) && pairedOkAux (pre ++ [m]) rest

/-- The spec §3 pairing invariant: every capability-result message's
`capability_call_ref` matches exactly one unanswered `CapabilityCall`
appearing earlier in the transcript. -/
def pairedOk (t : Transcript) : Bool :=
  pairedOkAux [] t

/-- Every capability call in the transcript is answered by some
capability-result message (spec §3: no unanswered call when the transcript is
presented for a new planning step). -/
def allAnswered (t : Transcript) : Bool :=
  (callIdsOf t).all (fun i => memB i (refIdsOf t))

/-- Causality check relative to the set of result references already seen: no
message may carry a capability call whose id an earlier message has already
used as a `capability_call_ref`. -/
def orderedAux : List Nat → Transcript → Bool
  | _, [] => true
  | seen, m :: rest =>
    m.capabilityCalls.all (fun c => ! memB c.callId seen) &&
    orderedAux
      (seen ++ (match m.capabilityCallRef with
                | some r => [r]
                | none => [])) rest

/-- No capability-result reference precedes a call carrying the same id:
results only ever answer earlier calls. -/
def ordered (t : Transcript) : Bool :=
  orderedAux [] t

/-- The leading `system` region of the transcript carries no capability
calls. -/
def sysNoCalls (t : Transcript) : Prop :=
  callIdsOf (t.take (sysCount t)) = []

/-- Modelled from the spec (§2/§4.6): a caller-submitted initial transcript —
`system`/`user` content only, with no capability calls or results. -/
def cleanInitial (t0 : Transcript) : Prop :=
  ∀ m ∈ t0, (m.role = Role.system ∨ m.role = Role.user) ∧
    m.capabilityCalls = [] ∧ m.capabilityCallRef = none

/-- Modelled from the spec (§3): `call_id` is unique within the run — the
model's parsed responses carry pairwise-distinct call ids that are fresh with
respect to the transcript they answer. -/
def freshCalls (modelFn : Transcript → ModelResponse) : Prop :=
  ∀ t, ((modelFn t).capabilityCalls.map (·.callId)).Nodup ∧
    ∀ c ∈ (modelFn t).capabilityCalls,
      c.callId ∉ callIdsOf t ∧ c.callId ∉ refIdsOf t

/-- Scenario D configuration: budget trigger `{messages: 4, mode: OR}` with
`keep_count` 2 and iteration cap 6. -/
def cfgD : RunConfig :=
  ⟨6, ⟨none, some 4, TriggerMode.OR⟩, 2, [stubCap], fun _ => "SUMMARY"⟩

/-- Scenario C model behaviour: request the unknown capability `foo` on the
first planning step, then answer `done`. -/
def modelC : Transcript → ModelResponse :=
  fun t => if t.length ≤ 1 then ⟨"", [⟨1, "foo", []⟩]⟩ else ⟨"done", []⟩

/-- Scenario C configuration: iteration cap 5, no condensation, only the stub
capability registered (so `foo` is unknown). -/
def cfgC : RunConfig :=
  ⟨5, noTrigger, 0, [stubCap], fun _ => "S"⟩

/-- A model behaviour issuing call 1 on the first planning step, call 2 on the
second, then answering; drives the condensation pairing counterexample. -/
def modelSplit : Transcript → ModelResponse :=
  fun t =>
    if t.length ≤ 1 then ⟨"a", [⟨1, "cap", []⟩]⟩
    else if t.length = 3 then ⟨"b", [⟨2, "cap", []⟩]⟩
    else ⟨"fin", []⟩

/-- Configuration whose condensation boundary separates call 1 from its
result: trigger `{messages: 5, mode: OR}`, `keep_count` 3. -/
def cfgSplit : RunConfig :=
  ⟨4, ⟨none, some 5, TriggerMode.OR⟩, 3, [stubCap], fun _ => "SUMMARY"⟩

/-- A similarity search that finds nothing for any query. -/
def emptySearch : String → List Doc :=
  fun _ => []

/-- A similarity search that always retrieves one company-history document. -/
def oneDocSearch : String → List Doc :=
  fun _ => [⟨"company-history.md", "Founded in 2020."⟩]

/-- A transcript whose to-be-condensed prefix is a single message: leading
`system` message, then three user messages with `keep_count` 2. -/
def tC3 : Transcript :=
  [⟨Role.system, "sys", [], none⟩, userMsg "a", userMsg "b", userMsg "c"]

/-- A transcript whose to-be-condensed prefix holds two messages under
`keep_count` 2. -/
def tC3b : Transcript :=
  [⟨Role.system, "sys", [], none⟩, userMsg "a", userMsg "b", userMsg "c", userMsg "d"]

/-- A transcript with an unanswered capability call (id 1) inside the
to-be-condensed prefix under `keep_count` 2. -/
def tC5 : Transcript :=
  [userMsg "u", ⟨Role.assistant, "a", [⟨1, "cap", []⟩], none⟩, userMsg "x", userMsg "y"]

/-- A configuration whose message trigger always fires and whose `keep_count`
is 2, exercising the deferral guard on `tC5`. -/
def cfg5 : RunConfig :=
  ⟨1, ⟨none, some 1, TriggerMode.OR⟩, 2, [], fun _ => "S"⟩

/-- A capability whose handler always fails. -/
def failCap : Capability :=
  ⟨"boom", [], fun _ => Except.error "exploded"⟩

/-- A model behaviour requesting the always-failing capability `boom` on the
first planning step, then answering. -/
def modelFail : Transcript → ModelResponse :=
  fun t => if t.length ≤ 1 then ⟨"", [⟨1, "boom", []⟩]⟩ else ⟨"done", []⟩

/-- Configuration with the always-failing capability registered. -/
def cfgFail : RunConfig :=
  ⟨5, noTrigger, 0, [failCap], fun _ => "S"⟩

/-- A model behaviour requesting `searchCompanyDocs` with no arguments
(violating its schema, which requires `query`), then answering. -/
def modelSchema : Transcript → ModelResponse :=
  fun t => if t.length ≤ 1 then ⟨"", [⟨1, "searchCompanyDocs", []⟩]⟩ else ⟨"done", []⟩

/-- Configuration with the retrieval capability registered, driven by the
schema-violating model behaviour. -/
def cfgSchema : RunConfig :=
  ⟨5, noTrigger, 0, [retrievalTool emptySearch], fun _ => "S"⟩

theorem callIdsOf_nil : callIdsOf [] = [] := rfl

theorem callIdsOf_cons (m : Message) (t : Transcript) :
    callIdsOf (m :: t) = m.capabilityCalls.map (·.callId) ++ callIdsOf t := rfl

theorem callIdsOf_append (u v : Transcript) :
    callIdsOf (u ++ v) = callIdsOf u ++ callIdsOf v := by
  induction u with
  | nil => simp [callIdsOf]
  | cons m u ih =>
    simp only [List.cons_append, callIdsOf_cons, ih, List.append_assoc]

theorem refIdsOf_nil : refIdsOf [] = [] := rfl

theorem refIdsOf_cons (m : Message) (t : Transcript) :
    refIdsOf (m :: t) =
      (match m.capabilityCallRef with
       | some r => [r]
       | none => []) ++ refIdsOf t := by
  cases h : m.capabilityCallRef <;> simp [refIdsOf, h]

theorem refIdsOf_append (u v : Transcript) :
    refIdsOf (u ++ v) = refIdsOf u ++ refIdsOf v := by
  induction u with
  | nil => simp [refIdsOf]
  | cons m u ih =>
    simp only [List.cons_append, refIdsOf_cons, ih, List.append_assoc]

theorem memB_iff (i : Nat) (l : List Nat) : memB i l = true ↔ i ∈ l := by
  simp [memB, List.any_eq_true]

theorem memB_eq_false_iff (i : Nat) (l : List Nat) : memB i l = false ↔ i ∉ l := by
  rw [← Bool.not_eq_true, not_iff_not, memB_iff]

theorem execCall_fst_role (reg : List Capability) (c : CapabilityCall) :
    (execCall reg c).1.role = Role.capabilityResult := by
  unfold execCall
  split
  · rfl
  · split
    · split <;> rfl
    · rfl

theorem execCall_fst_ref (reg : List Capability) (c : CapabilityCall) :
    (execCall reg c).1.capabilityCallRef = some c.callId := by
  unfold execCall
  split
  · rfl
  · split
    · split <;> rfl
    · rfl

theorem execCall_fst_calls (reg : List Capability) (c : CapabilityCall) :
    (execCall reg c).1.capabilityCalls = [] := by
  unfold execCall
  split
  · rfl
  · split
    · split <;> rfl
    · rfl

theorem execCalls_aux (reg : List Capability) :
    ∀ (cs : List CapabilityCall) (t : Transcript) (n : Nat),
      List.foldl (fun acc c =>
          ((acc.1 ++ [(execCall reg c).1] : Transcript), acc.2 + (execCall reg c).2))
        (t, n) cs =
      (t ++ cs.map (fun c => (execCall reg c).1),
       n + (cs.map (fun c => (execCall reg c).2)).sum) := by
  intro cs
  induction cs with
  | nil => intro t n; simp
  | cons c cs ih =>
    intro t n
    simp only [List.foldl_cons, List.map_cons, List.sum_cons, ih, List.append_assoc,
      List.singleton_append, Nat.add_assoc]

theorem execCalls_eq (reg : List Capability) (t : Transcript) (cs : List CapabilityCall) :
    execCalls reg t cs =
      (t ++ cs.map (fun c => (execCall reg c).1),
       (cs.map (fun c => (execCall reg c).2)).sum) := by
  have h := execCalls_aux reg cs t 0
  simpa [execCalls] using h

/-- C8: for every assistant turn emitting two or more capability calls (and in
fact any number of them), the loop's execution phase appends exactly one
capability-result message per call, sequentially in emission order, and the
result messages answer the calls in exactly that relative order. -/
theorem capability_results_in_emission_order (reg : List Capability) (t : Transcript)
    (cs : List CapabilityCall) :
    (execCalls reg t cs).1 = t ++ cs.map (fun c => (execCall reg c).1) ∧
    ((execCalls reg t cs).1.drop t.length).map (·.capabilityCallRef) =
      cs.map (fun c => some c.callId) := by
  refine ⟨by rw [execCalls_eq], ?_⟩
  rw [execCalls_eq]
  simp only [List.drop_left, List.map_map]
  exact List.map_congr_left (fun c _ => by simp [Function.comp, execCall_fst_ref])

theorem runLoop_iters_le (cfg : RunConfig) (m : Transcript → ModelResponse) :
    ∀ (fuel : Nat) (t : Transcript) (iters hc : Nat) (plans : List Transcript),
      (runLoop cfg m fuel t iters hc plans).iterationsUsed ≤ iters + fuel := by
  intro fuel
  induction fuel with
  | zero => intro t iters hc plans; simp [runLoop]
  | succ n ih =>
    intro t iters hc plans
    rw [runLoop]
    cases h : (m t).capabilityCalls with
    | nil => simp
    | cons c cs =>
      dsimp only
      have h2 := ih (budgetCheck cfg
          (execCalls cfg.registry
            (t ++ [⟨Role.assistant, (m t).content, c :: cs, none⟩]) (c :: cs)).1)
        (iters + 1)
        (hc + (execCalls cfg.registry
          (t ++ [⟨Role.assistant, (m t).content, c :: cs, none⟩]) (c :: cs)).2)
        (t :: plans)
      omega

/-- C1: for every run configuration with a finite iteration cap and every
model behaviour, the orchestration loop reaches a terminal outcome within at
most `iteration_cap` planning iterations; and in Scenario E — cap 3 with a
model that requests a capability on every planning step — the run terminates
with `IterationLimitExceeded` immediately after the 3rd capability execution,
the handler having run exactly 3 times (no 4th execution occurs). -/
theorem iteration_cap_bounds_loop :
    (∀ (cfg : RunConfig) (modelFn : Transcript → ModelResponse) (t0 : Transcript),
      (runAgent cfg modelFn t0).iterationsUsed ≤ cfg.iterationCap) ∧
    (runAgent cfgE alwaysCallModel [userMsg "go"]).status =
      RunStatus.iterationLimitExceeded ∧
    (runAgent cfgE alwaysCallModel [userMsg "go"]).iterationsUsed = 3 ∧
    (runAgent cfgE alwaysCallModel [userMsg "go"]).handlerInvocations = 3 := by
  refine ⟨fun cfg m t0 => ?_, rfl, rfl, rfl⟩
  have h := runLoop_iters_le cfg m cfg.iterationCap t0 0 0 []
  simpa [runAgent] using h

theorem joinSep_length_ge (sep x : String) (xs : List String) :
    x.length ≤ (joinSep sep (x :: xs)).length := by
  cases xs with
  | nil => simp [joinSep]
  | cons y ys => simp [joinSep, String.length_append]; omega

theorem formatResults_ne_empty (d : Doc) (ds : List Doc) :
    formatResults (d :: ds) ≠ "" := by
  intro h
  have hlen := congrArg String.length h
  unfold formatResults at hlen
  simp only [List.map_cons] at hlen
  have hge := joinSep_length_ge "\n\n" ("[" ++ d.source ++ "]: " ++ d.pageContent)
    (ds.map (fun d => "[" ++ d.source ++ "]: " ++ d.pageContent))
  rw [hlen] at hge
  have h1 : ("[" : String).length = 1 := rfl
  simp [String.length_append, h1] at hge

/-- C10: when the similarity search returns no documents the retrieval
handler returns the literal fallback "No relevant documents found." rather
than the empty formatted string, and in fact the handler's result is never
empty for any search outcome. -/
theorem retrieval_empty_fallback :
    (∀ (search : String → List Doc) (q : String), search q = [] →
      retrievalHandler search q = "No relevant documents found.") ∧
    (∀ (search : String → List Doc) (q : String), retrievalHandler search q ≠ "") := by
  constructor
  · intro search q h
    simp [retrievalHandler, h, formatResults, joinSep]
  · intro search q
    simp only [retrievalHandler]
    split
    · decide
    · assumption

theorem retrieval_empty_fallback_witness :
    emptySearch "anything" = [] ∧
    retrievalHandler emptySearch "anything" = "No relevant documents found." :=
  ⟨rfl, retrieval_empty_fallback.1 emptySearch "anything" rfl⟩

/-- C9: whenever the similarity search returns at least one document, the
retrieval handler returns exactly the source-attributed entries
`[source]: excerpt`, one per retrieved document, joined in retrieval order. -/
theorem retrieval_formats_sources (search : String → List Doc) (q : String)
    (h : search q ≠ []) :
    retrievalHandler search q =
      joinSep "\n\n" ((search q).map (fun d => "[" ++ d.source ++ "]: " ++ d.pageContent)) := by
  cases hc : search q with
  | nil => exact absurd hc h
  | cons d ds =>
    have hne : formatResults (d :: ds) ≠ "" := formatResults_ne_empty d ds
    have h1 : retrievalHandler search q = formatResults (d :: ds) := by
      simp only [retrievalHandler, hc]
      rw [if_neg hne]
    rw [h1]
    simp [formatResults]

theorem retrieval_formats_sources_witness :
    oneDocSearch "q" ≠ [] ∧
    retrievalHandler oneDocSearch "q" =
      joinSep "\n\n" ((oneDocSearch "q").map
        (fun d => "[" ++ d.source ++ "]: " ++ d.pageContent)) :=
  ⟨by decide, retrieval_formats_sources oneDocSearch "q" (by decide)⟩

/-- C6: a capability invocation whose arguments violate the argument schema
(a required field missing) fails with a `SchemaViolation` result that lists
the offending fields, and the handler is invoked zero times for that call. -/
theorem schema_violation_blocks_handler (reg : List Capability) (c : CapabilityCall)
    (cap : Capability)
    (hres : reg.find? (fun k => k.name == c.capabilityName) = some cap)
    (hmiss : missingFields cap.requiredFields c.arguments ≠ []) :
    (execCall reg c).2 = 0 ∧
    (execCall reg c).1 =
      mkResult ("Error: SchemaViolation: missing " ++
        joinSep ", " (missingFields cap.requiredFields c.arguments)) c.callId := by
  cases hm : missingFields cap.requiredFields c.arguments with
  | nil => exact absurd hm hmiss
  | cons f fs =>
    simp [execCall, hres, hm]

theorem schema_violation_blocks_handler_witness :
    missingFields (retrievalTool emptySearch).requiredFields [("topic", "x")] ≠ [] ∧
    (execCall [retrievalTool emptySearch] ⟨7, "searchCompanyDocs", [("topic", "x")]⟩).2 = 0 ∧
    (execCall [retrievalTool emptySearch] ⟨7, "searchCompanyDocs", [("topic", "x")]⟩).1 =
      mkResult "Error: SchemaViolation: missing query" 7 := by
  have h := schema_violation_blocks_handler [retrievalTool emptySearch]
    ⟨7, "searchCompanyDocs", [("topic", "x")]⟩ (retrievalTool emptySearch) rfl (by decide)
  exact ⟨by decide, h.1, h.2⟩

/-- C7: capability-level failures during EXECUTING_CAPABILITIES are data, not
control flow.  For every call, execution yields a capability-result message
answering that call; under each of the three failure kinds — the capability
resolves to none (`UnknownCapability`), its schema's required fields are
missing (`SchemaViolation`), or its handler fails
(`CapabilityHandlerFailure`) — that message carries the corresponding error
description, and the run does not abort: one concrete run per kind gains the
error capability-result and completes normally on the next planning step
(Scenario C for the unknown capability `foo`). -/
theorem capability_errors_are_data (reg : List Capability) (c : CapabilityCall) :
    ((execCall reg c).1.role = Role.capabilityResult ∧
     (execCall reg c).1.capabilityCallRef = some c.callId) ∧
    (reg.find? (fun k => k.name == c.capabilityName) = none →
      execCall reg c =
        (mkResult ("Error: UnknownCapability: " ++ c.capabilityName) c.callId, 0)) ∧
    (∀ cap, reg.find? (fun k => k.name == c.capabilityName) = some cap →
      ∀ f fs, missingFields cap.requiredFields c.arguments = f :: fs →
        execCall reg c =
          (mkResult ("Error: SchemaViolation: missing " ++ joinSep ", " (f :: fs))
            c.callId, 0)) ∧
    (∀ cap, reg.find? (fun k => k.name == c.capabilityName) = some cap →
      missingFields cap.requiredFields c.arguments = [] →
      ∀ e, cap.handler c.arguments = Except.error e →
        execCall reg c =
          (mkResult ("Error: CapabilityHandlerFailure: " ++ e) c.callId, 1)) ∧
    ((runAgent cfgC modelC [userMsg "hi"]).status = RunStatus.completed "done" ∧
     ((runAgent cfgC modelC [userMsg "hi"]).transcript.any (fun m =>
       m.role == Role.capabilityResult &&
       m.content == "Error: UnknownCapability: foo" &&
       m.capabilityCallRef == some 1)) = true ∧
     (runAgent cfgC modelC [userMsg "hi"]).iterationsUsed = 2 ∧
     (runAgent cfgC modelC [userMsg "hi"]).handlerInvocations = 0) ∧
    ((runAgent cfgSchema modelSchema [userMsg "hi"]).status = RunStatus.completed "done" ∧
     ((runAgent cfgSchema modelSchema [userMsg "hi"]).transcript.any (fun m =>
       m.role == Role.capabilityResult &&
       m.content == "Error: SchemaViolation: missing query" &&
       m.capabilityCallRef == some 1)) = true ∧
     (runAgent cfgSchema modelSchema [userMsg "hi"]).handlerInvocations = 0) ∧
    ((runAgent cfgFail modelFail [userMsg "hi"]).status = RunStatus.completed "done" ∧
     ((runAgent cfgFail modelFail [userMsg "hi"]).transcript.any (fun m =>
       m.role == Role.capabilityResult &&
       m.content == "Error: CapabilityHandlerFailure: exploded" &&
       m.capabilityCallRef == some 1)) = true ∧
     (runAgent cfgFail modelFail [userMsg "hi"]).iterationsUsed = 2) := by
  refine ⟨⟨execCall_fst_role reg c, execCall_fst_ref reg c⟩, ?_, ?_, ?_,
    ⟨rfl, rfl, rfl, rfl⟩, ⟨rfl, rfl, rfl⟩, ⟨rfl, rfl, rfl⟩⟩
  · intro h
    simp only [execCall, h]
  · intro cap hres f fs hm
    simp [execCall, hres, hm]
  · intro cap hres hm e he
    simp [execCall, hres, hm, he]

theorem capability_errors_are_data_witness :
    ([stubCap].find? (fun k => k.name == "foo") = none) ∧
    execCall [stubCap] ⟨9, "foo", []⟩ = (mkResult "Error: UnknownCapability: foo" 9, 0) ∧
    missingFields (retrievalTool emptySearch).requiredFields [] = ["query"] ∧
    execCall [retrievalTool emptySearch] ⟨8, "searchCompanyDocs", []⟩ =
      (mkResult "Error: SchemaViolation: missing query" 8, 0) ∧
    failCap.handler [] = Except.error "exploded" ∧
    execCall [failCap] ⟨6, "boom", []⟩ =
      (mkResult "Error: CapabilityHandlerFailure: exploded" 6, 1) := by
  have h1 := (capability_errors_are_data [stubCap] ⟨9, "foo", []⟩).2.1 rfl
  have h2 := (capability_errors_are_data [retrievalTool emptySearch]
    ⟨8, "searchCompanyDocs", []⟩).2.2.1 (retrievalTool emptySearch) rfl
    "query" [] (by decide)
  have h3 := (capability_errors_are_data [failCap] ⟨6, "boom", []⟩).2.2.2.1 failCap rfl
    (by decide) "exploded" rfl
  exact ⟨rfl, h1, by decide, h2, rfl, h3⟩

/-- C4: the condensation trigger fires, under OR mode, exactly when the token
count or the message count reaches its threshold, and under AND mode exactly
when both do; and in Scenario D — trigger `{messages: 4, mode: OR}` with
`keep_count` 2 — condensation has collapsed the prefix before the 5th
planning call, which sees a 3-message transcript (below 4 plus kept) headed
by the synthetic summary message. -/
theorem trigger_semantics (tr : BudgetTrigger) (T M tok n : Nat)
    (hT : tr.tokens = some T) (hM : tr.messages = some M) :
    ((tr.mode = TriggerMode.OR → (triggerHolds tr tok n = true ↔ (T ≤ tok ∨ M ≤ n))) ∧
     (tr.mode = TriggerMode.AND → (triggerHolds tr tok n = true ↔ (T ≤ tok ∧ M ≤ n)))) ∧
    ((runAgent cfgD alwaysCallModel [userMsg "go"]).planningTranscripts.length = 6 ∧
     ((runAgent cfgD alwaysCallModel [userMsg "go"]).planningTranscripts.getD 4 []).length = 3 ∧
     ((runAgent cfgD alwaysCallModel [userMsg "go"]).planningTranscripts.getD 4 []).length <
       4 + cfgD.keepCount ∧
     ((runAgent cfgD alwaysCallModel [userMsg "go"]).planningTranscripts.getD 4 []).headD
       (userMsg "x") = ⟨Role.assistant, "SUMMARY", [], none⟩) := by
  refine ⟨⟨?_, ?_⟩, rfl, rfl, by decide, rfl⟩
  · intro hmode
    simp [triggerHolds, hT, hM, hmode]
  · intro hmode
    simp [triggerHolds, hT, hM, hmode]

theorem trigger_semantics_witness :
    ((⟨some 10, some 2, TriggerMode.OR⟩ : BudgetTrigger).tokens = some 10) ∧
    ((⟨some 10, some 2, TriggerMode.OR⟩ : BudgetTrigger).messages = some 2) ∧
    triggerHolds ⟨some 10, some 2, TriggerMode.OR⟩ 0 5 = true := by
  refine ⟨rfl, rfl, ?_⟩
  have h := (trigger_semantics ⟨some 10, some 2, TriggerMode.OR⟩ 10 2 0 5 rfl rfl).1.1 rfl
  exact h.mpr (Or.inr (by norm_num))

theorem sysCount_le (t : Transcript) : sysCount t ≤ t.length := by
  cases t with
  | nil => simp [sysCount]
  | cons m t => simp [sysCount]; split <;> simp

theorem condense_eq (s : Transcript → String) (keep : Nat) (t : Transcript)
    (h : condensePfx keep t ≠ []) :
    condense s keep t =
      t.take (sysCount t) ++
        (⟨Role.assistant, s (condensePfx keep t), [], none⟩ : Message) ::
          condenseSuffix keep t := by
  simp only [condense]
  rw [if_neg h]

theorem condense_decomp (keep : Nat) (t : Transcript) :
    t.take (sysCount t) ++ (condensePfx keep t ++ condenseSuffix keep t) = t := by
  unfold condensePfx condenseSuffix
  rw [List.take_append_drop, List.take_append_drop]

/-- C3 (amended): whenever a condensation pass actually runs (nonempty
to-be-condensed prefix), the last `keep_count` messages and the leading
`system` message are byte-identical before and after, in their original
relative order, and the message count never increases — and strictly
decreases whenever the condensed prefix holds at least two messages. -/
theorem condensation_preserves_tail (s : Transcript → String) (keep : Nat) (t : Transcript)
    (h : condensePfx keep t ≠ []) :
    (condense s keep t).drop ((condense s keep t).length - keep) =
      t.drop (t.length - keep) ∧
    (condense s keep t).take (sysCount t) = t.take (sysCount t) ∧
    (condense s keep t).length ≤ t.length ∧
    (2 ≤ (condensePfx keep t).length → (condense s keep t).length < t.length) := by
  have hks : keep < (t.drop (sysCount t)).length := by
    have h2 : ¬((t.drop (sysCount t)).length - keep = 0 ∨ t.drop (sysCount t) = []) := by
      intro hh
      exact h (List.take_eq_nil_iff.mpr hh)
    omega
  have hlen_t : t.length = sysCount t + (t.drop (sysCount t)).length := by
    have h1 := List.length_drop (sysCount t) t
    have h2 := sysCount_le t
    omega
  have htake_len : (t.take (sysCount t)).length = sysCount t :=
    (List.length_take _ _).trans (min_eq_left (sysCount_le t))
  have hsuf_len : (condenseSuffix keep t).length = keep := by
    unfold condenseSuffix
    rw [List.length_drop]
    omega
  have hpfx_len : (condensePfx keep t).length = (t.drop (sysCount t)).length - keep := by
    unfold condensePfx
    exact (List.length_take _ _).trans (min_eq_left (Nat.sub_le _ _))
  have hclen : (condense s keep t).length = sysCount t + 1 + keep := by
    rw [condense_eq s keep t h]
    simp [htake_len, hsuf_len]
    omega
  refine ⟨?_, ?_, ?_, ?_⟩
  · rw [hclen, condense_eq s keep t h]
    have e1 : sysCount t + 1 + keep - keep = sysCount t + 1 := by omega
    rw [e1]
    have hassoc : t.take (sysCount t) ++
        (⟨Role.assistant, s (condensePfx keep t), [], none⟩ : Message) ::
          condenseSuffix keep t =
        (t.take (sysCount t) ++
          [(⟨Role.assistant, s (condensePfx keep t), [], none⟩ : Message)]) ++
          condenseSuffix keep t := by
      simp
    have hlen2 : (t.take (sysCount t) ++
        [(⟨Role.assistant, s (condensePfx keep t), [], none⟩ : Message)]).length =
        sysCount t + 1 := by
      simp [htake_len]
    rw [hassoc, ← hlen2, List.drop_left]
    have e2 : t.length - keep = sysCount t + ((t.drop (sysCount t)).length - keep) := by
      omega
    rw [e2, ← List.drop_drop]
    rfl
  · rw [condense_eq s keep t h]
    have h3 := List.take_left (t.take (sysCount t))
      ((⟨Role.assistant, s (condensePfx keep t), [], none⟩ : Message) ::
        condenseSuffix keep t)
    rw [htake_len] at h3
    exact h3
  · rw [hclen]; omega
  · intro h2
    rw [hpfx_len] at h2
    rw [hclen]; omega

/-- C3 counterexample to the claim as stated: a condensation pass whose
prefix is a single message runs but leaves the total message count
unchanged — replacing one message by one summary is not a strict decrease. -/
theorem condensation_strict_decrease_cex :
    condensePfx 2 tC3 ≠ [] ∧
    (condense (fun _ => "SUMMARY") 2 tC3).length = tC3.length :=
  ⟨by decide, by decide⟩

theorem condensation_preserves_tail_witness :
    (condensePfx 2 tC3b ≠ [] ∧ 2 ≤ (condensePfx 2 tC3b).length) ∧
    ((condense (fun _ => "S") 2 tC3b).drop
        ((condense (fun _ => "S") 2 tC3b).length - 2) = tC3b.drop (tC3b.length - 2) ∧
     (condense (fun _ => "S") 2 tC3b).take (sysCount tC3b) = tC3b.take (sysCount tC3b) ∧
     (condense (fun _ => "S") 2 tC3b).length < tC3b.length) := by
  have h := condensation_preserves_tail (fun _ => "S") 2 tC3b (by decide)
  exact ⟨⟨by decide, by decide⟩, h.1, h.2.1, h.2.2.2 (by decide)⟩

theorem condense_preserves_unanswered (s : Transcript → String) (keep : Nat)
    (t : Transcript) (hpend : pendingInPfx keep t = false) :
    ∀ i ∈ unansweredIds t, i ∈ unansweredIds (condense s keep t) := by
  intro i hi
  have hu := List.mem_filter.mp hi
  have hcall : i ∈ callIdsOf t := hu.1
  have href : i ∉ refIdsOf t := by
    have h2 := hu.2
    rw [Bool.not_eq_true'] at h2
    exact (memB_eq_false_iff _ _).mp h2
  simp only [condense]
  by_cases hne : condensePfx keep t = []
  · rw [if_pos hne]; exact hi
  · rw [if_neg hne]
    have hnotpfx : i ∉ callIdsOf (condensePfx keep t) := by
      intro hin
      unfold pendingInPfx at hpend
      have h3 := List.any_eq_false.mp hpend i hin
      rw [Bool.not_eq_true, Bool.not_eq_false'] at h3
      exact href ((memB_iff _ _).mp h3)
    have hct : callIdsOf t =
        callIdsOf (t.take (sysCount t)) ++
          (callIdsOf (condensePfx keep t) ++ callIdsOf (condenseSuffix keep t)) := by
      conv_lhs => rw [← condense_decomp keep t]
      rw [callIdsOf_append, callIdsOf_append]
    have hrteq : refIdsOf t =
        refIdsOf (t.take (sysCount t)) ++
          (refIdsOf (condensePfx keep t) ++ refIdsOf (condenseSuffix keep t)) := by
      conv_lhs => rw [← condense_decomp keep t]
      rw [refIdsOf_append, refIdsOf_append]
    have hrt : ∀ j, (j ∈ refIdsOf (t.take (sysCount t)) ∨
        j ∈ refIdsOf (condenseSuffix keep t)) → j ∈ refIdsOf t := by
      intro j hj
      rw [hrteq]
      rcases hj with h4 | h4
      · exact List.mem_append.mpr (Or.inl h4)
      · exact List.mem_append.mpr (Or.inr (List.mem_append.mpr (Or.inr h4)))
    rw [hct] at hcall
    have hsplit : i ∈ callIdsOf (t.take (sysCount t)) ∨
        i ∈ callIdsOf (condenseSuffix keep t) := by
      rcases List.mem_append.mp hcall with h4 | h4
      · exact Or.inl h4
      · rcases List.mem_append.mp h4 with h5 | h5
        · exact absurd h5 hnotpfx
        · exact Or.inr h5
    apply List.mem_filter.mpr
    constructor
    · rw [callIdsOf_append, callIdsOf_cons]
      rcases hsplit with h4 | h4 <;> simp [h4]
    · rw [Bool.not_eq_true', memB_eq_false_iff]
      intro hmem
      rw [refIdsOf_append, refIdsOf_cons] at hmem
      simp only [List.nil_append] at hmem
      rcases List.mem_append.mp hmem with h4 | h4
      · exact href (hrt i (Or.inl h4))
      · exact href (hrt i (Or.inr h4))

/-- C5: the Context Budget Manager defers condensation whenever a capability
call inside the to-be-condensed prefix is still unanswered (the transcript is
returned untouched), and in every state the budget check never orphans an
unanswered call: each unanswered call id survives the check. -/
theorem condensation_defers_on_pending (cfg : RunConfig) (t : Transcript) :
    (pendingInPfx cfg.keepCount t = true → budgetCheck cfg t = t) ∧
    (∀ i ∈ unansweredIds t, i ∈ unansweredIds (budgetCheck cfg t)) := by
  constructor
  · intro hp
    unfold budgetCheck
    split <;> simp [hp]
  · intro i hi
    unfold budgetCheck
    by_cases htrig : triggerHolds cfg.trigger (estimateSize t) t.length = true
    · rw [if_pos htrig]
      by_cases hpend : pendingInPfx cfg.keepCount t = true
      · rw [if_pos hpend]; exact hi
      · rw [if_neg hpend]
        exact condense_preserves_unanswered cfg.summarize cfg.keepCount t
          (Bool.not_eq_true _ ▸ hpend : pendingInPfx cfg.keepCount t = false) i hi
    · rw [if_neg htrig]; exact hi

theorem condensation_defers_on_pending_witness :
    (pendingInPfx cfg5.keepCount tC5 = true ∧ budgetCheck cfg5 tC5 = tC5) ∧
    (1 ∈ unansweredIds tC5 ∧ 1 ∈ unansweredIds (budgetCheck cfg5 tC5)) := by
  refine ⟨⟨by decide, (condensation_defers_on_pending cfg5 tC5).1 (by decide)⟩,
    by decide, (condensation_defers_on_pending cfg5 tC5).2 1 (by decide)⟩

theorem pairedOkAux_append (u v : Transcript) :
    ∀ pre, pairedOkAux pre (u ++ v) = (pairedOkAux pre u && pairedOkAux (pre ++ u) v) := by
  induction u with
  | nil => intro pre; simp [pairedOkAux]
  | cons m u ih =>
    intro pre
    rw [List.cons_append]
    simp only [pairedOkAux]
    rw [ih (pre ++ [m]), List.append_cons pre m u, Bool.and_assoc]

theorem orderedAux_append (u v : Transcript) :
    ∀ seen, orderedAux seen (u ++ v) =
      (orderedAux seen u && orderedAux (seen ++ refIdsOf u) v) := by
  induction u with
  | nil => intro seen; simp [orderedAux, refIdsOf_nil]
  | cons m u ih =>
    intro seen
    rw [List.cons_append]
    simp only [orderedAux]
    rw [ih, refIdsOf_cons, ← List.append_assoc, Bool.and_assoc]

theorem orderedAux_mono (v : Transcript) :
    ∀ (seen1 seen2 : List Nat), (∀ i, i ∈ seen2 → i ∈ seen1) →
      orderedAux seen1 v = true → orderedAux seen2 v = true := by
  induction v with
  | nil => intro seen1 seen2 hsub h; simp [orderedAux]
  | cons m v ih =>
    intro seen1 seen2 hsub h
    simp only [orderedAux, Bool.and_eq_true] at h ⊢
    constructor
    · rw [List.all_eq_true] at h ⊢
      intro c hc
      have h1 := h.1 c hc
      rw [Bool.not_eq_true', memB_eq_false_iff] at h1 ⊢
      intro hmem
      exact h1 (hsub _ hmem)
    · exact ih _ _ (fun i hi => by
        rcases List.mem_append.mp hi with h2 | h2
        · exact List.mem_append.mpr (Or.inl (hsub i h2))
        · exact List.mem_append.mpr (Or.inr h2)) h.2

theorem orderedAux_calls_not_mem (v : Transcript) :
    ∀ seen, orderedAux seen v = true → ∀ i ∈ callIdsOf v, i ∉ seen := by
  induction v with
  | nil => intro seen h i hi; simp [callIdsOf_nil] at hi
  | cons m v ih =>
    intro seen h i hi
    simp only [orderedAux, Bool.and_eq_true] at h
    rw [callIdsOf_cons] at hi
    rcases List.mem_append.mp hi with h2 | h2
    · obtain ⟨c, hc, hcid⟩ := List.mem_map.mp h2
      have h3 := List.all_eq_true.mp h.1 c hc
      rw [Bool.not_eq_true', memB_eq_false_iff] at h3
      rw [← hcid]
      exact h3
    · intro hmem
      exact ih _ h.2 i h2 (List.mem_append.mpr (Or.inl hmem))

theorem noCalls_ordered (v : Transcript) :
    ∀ seen, (∀ m ∈ v, m.capabilityCalls = []) → orderedAux seen v = true := by
  induction v with
  | nil => intro seen h; simp [orderedAux]
  | cons m v ih =>
    intro seen h
    simp only [orderedAux, Bool.and_eq_true]
    constructor
    · rw [h m (List.mem_cons_self m v)]; simp
    · exact ih _ (fun m' hm' => h m' (List.mem_cons_of_mem m hm'))

theorem allAnswered_iff (t : Transcript) :
    allAnswered t = true ↔ ∀ i ∈ callIdsOf t, i ∈ refIdsOf t := by
  simp [allAnswered, List.all_eq_true, memB_iff]

theorem callIdsOf_resultsOf (reg : List Capability) (cs : List CapabilityCall) :
    callIdsOf (resultsOf reg cs) = [] := by
  induction cs with
  | nil => rfl
  | cons c cs ih =>
    simp only [resultsOf, List.map_cons, callIdsOf_cons, execCall_fst_calls,
      List.map_nil, List.nil_append]
    exact ih

theorem refIdsOf_resultsOf (reg : List Capability) (cs : List CapabilityCall) :
    refIdsOf (resultsOf reg cs) = cs.map (·.callId) := by
  induction cs with
  | nil => rfl
  | cons c cs ih =>
    simp only [resultsOf, List.map_cons, refIdsOf_cons, execCall_fst_ref]
    simp only [resultsOf] at ih
    rw [List.singleton_append, ih]

theorem resultsOf_noCalls (reg : List Capability) (cs : List CapabilityCall) :
    ∀ m ∈ resultsOf reg cs, m.capabilityCalls = [] := by
  intro m hm
  obtain ⟨c, _, hc⟩ := List.mem_map.mp hm
  rw [← hc]
  exact execCall_fst_calls reg c



theorem callIds_phase (reg : List Capability) (t : Transcript) (content : String)
    (cs : List CapabilityCall) :
    callIdsOf (t ++ (⟨Role.assistant, content, cs, none⟩ : Message) :: resultsOf reg cs) =
      callIdsOf t ++ cs.map (·.callId) := by
  rw [callIdsOf_append, callIdsOf_cons, callIdsOf_resultsOf, List.append_nil]

theorem refIds_phase (reg : List Capability) (t : Transcript) (content : String)
    (cs : List CapabilityCall) :
    refIdsOf (t ++ (⟨Role.assistant, content, cs, none⟩ : Message) :: resultsOf reg cs) =
      refIdsOf t ++ cs.map (·.callId) := by
  rw [refIdsOf_append, refIdsOf_cons, refIdsOf_resultsOf]
  simp

theorem exec_phase_eq (reg : List Capability) (t : Transcript) (content : String)
    (cs : List CapabilityCall) :
    (execCalls reg (t ++ [⟨Role.assistant, content, cs, none⟩]) cs).1 =
      t ++ (⟨Role.assistant, content, cs, none⟩ : Message) :: resultsOf reg cs := by
  rw [execCalls_eq]
  simp [resultsOf]

theorem exec_phase_allAnswered (reg : List Capability) (t : Transcript) (content : String)
    (cs : List CapabilityCall) (ha : allAnswered t = true) :
    allAnswered (execCalls reg (t ++ [⟨Role.assistant, content, cs, none⟩]) cs).1 = true := by
  rw [exec_phase_eq]
  rw [allAnswered_iff] at ha ⊢
  intro i hi
  rw [callIds_phase] at hi
  rw [refIds_phase]
  rcases List.mem_append.mp hi with h1 | h1
  · exact List.mem_append.mpr (Or.inl (ha i h1))
  · exact List.mem_append.mpr (Or.inr h1)

theorem exec_phase_ordered (reg : List Capability) (t : Transcript) (content : String)
    (cs : List CapabilityCall) (ho : ordered t = true)
    (hfr : ∀ c ∈ cs, c.callId ∉ refIdsOf t) :
    ordered (execCalls reg (t ++ [⟨Role.assistant, content, cs, none⟩]) cs).1 = true := by
  rw [exec_phase_eq]
  unfold ordered
  rw [orderedAux_append, Bool.and_eq_true]
  refine ⟨ho, ?_⟩
  simp only [List.nil_append, orderedAux, Bool.and_eq_true]
  constructor
  · rw [List.all_eq_true]
    intro c hc
    rw [Bool.not_eq_true', memB_eq_false_iff]
    exact hfr c hc
  · exact noCalls_ordered _ _ (resultsOf_noCalls reg cs)

theorem exec_phase_sysNoCalls (reg : List Capability) (t : Transcript) (content : String)
    (cs : List CapabilityCall) (hs : sysNoCalls t) :
    sysNoCalls (execCalls reg (t ++ [⟨Role.assistant, content, cs, none⟩]) cs).1 := by
  rw [exec_phase_eq]
  cases t with
  | nil => simp [sysNoCalls, sysCount, callIdsOf_nil]
  | cons m t' =>
    unfold sysNoCalls sysCount at hs ⊢
    rw [List.cons_append]
    dsimp only at hs ⊢
    by_cases hm : m.role = Role.system
    · rw [if_pos hm] at hs ⊢
      simpa using hs
    · rw [if_neg hm]
      simp [callIdsOf_nil]

theorem pairedOk_resultBlock (reg : List Capability) :
    ∀ (rest : List CapabilityCall) (pre : Transcript),
      (∀ c ∈ rest, (callIdsOf pre).count c.callId = 1 ∧ (refIdsOf pre).count c.callId = 0) →
      (rest.map (·.callId)).Nodup →
      pairedOkAux pre (resultsOf reg rest) = true := by
  intro rest
  induction rest with
  | nil => intro pre h hnd; rfl
  | cons c rest ih =>
    intro pre h hnd
    simp only [resultsOf, List.map_cons, pairedOkAux, execCall_fst_role, execCall_fst_ref,
      Bool.and_eq_true]
    have h1 := h c (List.mem_cons_self c rest)
    constructor
    · rw [h1.1, h1.2]
      decide
    · have hnd2 : (∀ x ∈ rest, ¬x.callId = c.callId) ∧
          (rest.map (fun x => x.callId)).Nodup := by simpa using hnd
      have ihres := ih (pre ++ [(execCall reg c).1]) ?_ hnd2.2
      · simpa [resultsOf] using ihres
      · intro c' hc'
        have h2 := h c' (List.mem_cons_of_mem c hc')
        have hneq : c'.callId ≠ c.callId := hnd2.1 c' hc'
        constructor
        · rw [callIdsOf_append, List.count_append, callIdsOf_cons, execCall_fst_calls,
            callIdsOf_nil]
          simpa using h2.1
        · rw [refIdsOf_append, List.count_append, refIdsOf_cons, execCall_fst_ref,
            refIdsOf_nil]
          have h3 : List.count c'.callId ([c.callId] ++ []) = 0 := by
            simp [List.count_singleton', hneq]
          simp only [h3, h2.2]

theorem pairedOk_exec_phase (reg : List Capability) (t : Transcript) (content : String)
    (cs : List CapabilityCall) (hpo : pairedOk t = true)
    (hnd : (cs.map (·.callId)).Nodup)
    (hfr : ∀ c ∈ cs, c.callId ∉ callIdsOf t ∧ c.callId ∉ refIdsOf t) :
    pairedOk (execCalls reg (t ++ [⟨Role.assistant, content, cs, none⟩]) cs).1 = true := by
  rw [exec_phase_eq]
  unfold pairedOk at hpo ⊢
  rw [pairedOkAux_append, Bool.and_eq_true]
  refine ⟨hpo, ?_⟩
  simp only [List.nil_append, pairedOkAux, Bool.true_and]
  apply pairedOk_resultBlock
  · intro c hc
    constructor
    · rw [callIdsOf_append, List.count_append, callIdsOf_cons, callIdsOf_nil,
        List.append_nil]
      have h0 : (callIdsOf t).count c.callId = 0 :=
        List.count_eq_zero.mpr (hfr c hc).1
      have h1 : (cs.map (·.callId)).count c.callId = 1 :=
        List.count_eq_one_of_mem hnd (List.mem_map.mpr ⟨c, hc, rfl⟩)
      rw [h0, h1]
    · rw [refIdsOf_append, List.count_append, refIdsOf_cons, refIdsOf_nil]
      have h0 : (refIdsOf t).count c.callId = 0 :=
        List.count_eq_zero.mpr (hfr c hc).2
      simp [h0]
  · exact hnd

theorem pairedOk_final_answer (t : Transcript) (content : String)
    (hpo : pairedOk t = true) :
    pairedOk (t ++ [⟨Role.assistant, content, [], none⟩]) = true := by
  unfold pairedOk at hpo ⊢
  rw [pairedOkAux_append, Bool.and_eq_true]
  exact ⟨hpo, rfl⟩



theorem cleanInitial_calls_nil (t0 : Transcript) (h : cleanInitial t0) :
    callIdsOf t0 = [] := by
  induction t0 with
  | nil => rfl
  | cons m t ih =>
    rw [callIdsOf_cons, (h m (List.mem_cons_self m t)).2.1]
    simp only [List.map_nil, List.nil_append]
    exact ih (fun m' hm' => h m' (List.mem_cons_of_mem m hm'))

theorem cleanInitial_allAnswered (t0 : Transcript) (h : cleanInitial t0) :
    allAnswered t0 = true := by
  rw [allAnswered_iff]
  intro i hi
  rw [cleanInitial_calls_nil t0 h] at hi
  simp at hi

theorem cleanInitial_ordered (t0 : Transcript) (h : cleanInitial t0) :
    ordered t0 = true :=
  noCalls_ordered t0 [] (fun m hm => (h m hm).2.1)

theorem cleanInitial_sysNoCalls (t0 : Transcript) (h : cleanInitial t0) :
    sysNoCalls t0 := by
  unfold sysNoCalls
  have h3 : callIdsOf (t0.take (sysCount t0)) ++ callIdsOf (t0.drop (sysCount t0)) = [] := by
    rw [← callIdsOf_append, List.take_append_drop, cleanInitial_calls_nil t0 h]
  exact (List.append_eq_nil.mp h3).1

theorem clean_pairedOkAux (t0 : Transcript) :
    cleanInitial t0 → ∀ pre, pairedOkAux pre t0 = true := by
  induction t0 with
  | nil => intro h pre; rfl
  | cons m t ih =>
    intro h pre
    simp only [pairedOkAux, Bool.and_eq_true]
    have hm := h m (List.mem_cons_self m t)
    constructor
    · rcases hm.1 with hr | hr <;> rw [hr]
    · exact ih (fun m' hm' => h m' (List.mem_cons_of_mem m hm')) (pre ++ [m])

theorem cleanInitial_pairedOk (t0 : Transcript) (h : cleanInitial t0) :
    pairedOk t0 = true :=
  clean_pairedOkAux t0 h []

theorem sysCount_nil : sysCount [] = 0 := rfl

theorem sysCount_cons (m : Message) (rest : Transcript) :
    sysCount (m :: rest) = if m.role = Role.system then 1 else 0 := rfl

theorem sysNoCalls_take_cons (u : Transcript) (msg : Message) (rest : Transcript)
    (hmsg : msg.role ≠ Role.system) (hs : sysNoCalls u) :
    sysNoCalls (u.take (sysCount u) ++ msg :: rest) := by
  cases u with
  | nil =>
    unfold sysNoCalls
    rw [sysCount_nil, List.take_nil, List.nil_append, sysCount_cons, if_neg hmsg]
    rfl
  | cons m u' =>
    unfold sysNoCalls at hs ⊢
    rw [sysCount_cons] at hs ⊢
    by_cases hm : m.role = Role.system
    · rw [if_pos hm] at hs ⊢
      rw [show List.take 1 (m :: u') = [m] from rfl] at hs ⊢
      rw [List.singleton_append, sysCount_cons, if_pos hm]
      simpa using hs
    · rw [if_neg hm] at hs ⊢
      rw [List.take_zero, List.nil_append, sysCount_cons, if_neg hmsg]
      rfl

theorem condense_preserves (s : Transcript → String) (keep : Nat) (u : Transcript)
    (ha : allAnswered u = true) (ho : ordered u = true) (hs : sysNoCalls u) :
    allAnswered (condense s keep u) = true ∧ ordered (condense s keep u) = true ∧
      sysNoCalls (condense s keep u) := by
  by_cases hne : condensePfx keep u = []
  · simp only [condense]
    rw [if_pos hne]
    exact ⟨ha, ho, hs⟩
  · rw [condense_eq s keep u hne]
    have hdec := condense_decomp keep u
    have ho2 : orderedAux [] (u.take (sysCount u)) = true ∧
        orderedAux (refIdsOf (u.take (sysCount u)) ++ refIdsOf (condensePfx keep u))
          (condenseSuffix keep u) = true := by
      unfold ordered at ho
      conv at ho => rw [← hdec]
      rw [orderedAux_append, Bool.and_eq_true] at ho
      obtain ⟨ho1, hor⟩ := ho
      rw [orderedAux_append, Bool.and_eq_true] at hor
      refine ⟨ho1, ?_⟩
      have h4 := hor.2
      simpa using h4
    refine ⟨?_, ?_, ?_⟩
    · rw [allAnswered_iff]
      intro i hi
      rw [callIdsOf_append, callIdsOf_cons] at hi
      simp only [List.map_nil, List.nil_append] at hi
      rcases List.mem_append.mp hi with h1 | h1
      · rw [hs] at h1
        simp at h1
      · have hcu : callIdsOf u =
            callIdsOf (u.take (sysCount u)) ++
              (callIdsOf (condensePfx keep u) ++ callIdsOf (condenseSuffix keep u)) := by
          conv_lhs => rw [← hdec]
          rw [callIdsOf_append, callIdsOf_append]
        have hiu : i ∈ callIdsOf u := by
          rw [hcu]
          exact List.mem_append.mpr (Or.inr (List.mem_append.mpr (Or.inr h1)))
        have hru : i ∈ refIdsOf u := (allAnswered_iff u).mp ha i hiu
        have hnotKP : i ∉ refIdsOf (u.take (sysCount u)) ++ refIdsOf (condensePfx keep u) :=
          orderedAux_calls_not_mem _ _ ho2.2 i h1
        have hrs : i ∈ refIdsOf (condenseSuffix keep u) := by
          have hrd : refIdsOf u =
              refIdsOf (u.take (sysCount u)) ++
                (refIdsOf (condensePfx keep u) ++ refIdsOf (condenseSuffix keep u)) := by
            conv_lhs => rw [← hdec]
            rw [refIdsOf_append, refIdsOf_append]
          rw [hrd] at hru
          rcases List.mem_append.mp hru with h2 | h2
          · exact absurd (List.mem_append.mpr (Or.inl h2)) hnotKP
          · rcases List.mem_append.mp h2 with h3 | h3
            · exact absurd (List.mem_append.mpr (Or.inr h3)) hnotKP
            · exact h3
        rw [refIdsOf_append, refIdsOf_cons]
        simp only [List.nil_append]
        exact List.mem_append.mpr (Or.inr hrs)
    · unfold ordered
      rw [orderedAux_append, Bool.and_eq_true]
      refine ⟨ho2.1, ?_⟩
      simp only [List.nil_append, orderedAux, Bool.and_eq_true]
      constructor
      · rfl
      · apply orderedAux_mono _ (refIdsOf (u.take (sysCount u)) ++ refIdsOf (condensePfx keep u))
        · intro i hi
          simp only [List.append_nil] at hi
          exact List.mem_append.mpr (Or.inl hi)
        · exact ho2.2
    · exact sysNoCalls_take_cons u
        (⟨Role.assistant, s (condensePfx keep u), [], none⟩ : Message)
        (condenseSuffix keep u) (fun hcon => Role.noConfusion hcon) hs



theorem budgetCheck_preserves (cfg : RunConfig) (u : Transcript)
    (ha : allAnswered u = true) (ho : ordered u = true) (hs : sysNoCalls u) :
    allAnswered (budgetCheck cfg u) = true ∧ ordered (budgetCheck cfg u) = true ∧
      sysNoCalls (budgetCheck cfg u) := by
  unfold budgetCheck
  by_cases h1 : triggerHolds cfg.trigger (estimateSize u) u.length = true
  · rw [if_pos h1]
    by_cases h2 : pendingInPfx cfg.keepCount u = true
    · rw [if_pos h2]; exact ⟨ha, ho, hs⟩
    · rw [if_neg h2]; exact condense_preserves cfg.summarize cfg.keepCount u ha ho hs
  · rw [if_neg h1]; exact ⟨ha, ho, hs⟩

theorem budgetCheck_noTrigger (cfg : RunConfig) (u : Transcript)
    (h : ∀ tok n, triggerHolds cfg.trigger tok n = false) :
    budgetCheck cfg u = u := by
  unfold budgetCheck
  rw [h (estimateSize u) u.length]
  simp

theorem runLoop_planning_allAnswered (cfg : RunConfig) (modelFn : Transcript → ModelResponse)
    (hfresh : freshCalls modelFn) :
    ∀ (fuel : Nat) (t : Transcript) (iters hc : Nat) (plans : List Transcript),
      allAnswered t = true → ordered t = true → sysNoCalls t →
      (∀ p ∈ plans, allAnswered p = true) →
      ∀ p ∈ (runLoop cfg modelFn fuel t iters hc plans).planningTranscripts,
        allAnswered p = true := by
  intro fuel
  induction fuel with
  | zero =>
    intro t iters hc plans ha ho hs hplans p hp
    simp only [runLoop] at hp
    rw [List.mem_reverse] at hp
    exact hplans p hp
  | succ n ih =>
    intro t iters hc plans ha ho hs hplans p hp
    rw [runLoop] at hp
    cases h : (modelFn t).capabilityCalls with
    | nil =>
      rw [h] at hp
      dsimp only at hp
      rw [List.mem_reverse] at hp
      rcases List.mem_cons.mp hp with h1 | h1
      · rw [h1]; exact ha
      · exact hplans p h1
    | cons c cs =>
      rw [h] at hp
      dsimp only at hp
      have hf := hfresh t
      rw [h] at hf
      have ha2 := exec_phase_allAnswered cfg.registry t (modelFn t).content (c :: cs) ha
      have ho2 := exec_phase_ordered cfg.registry t (modelFn t).content (c :: cs) ho
        (fun c' hc' => (hf.2 c' hc').2)
      have hs2 := exec_phase_sysNoCalls cfg.registry t (modelFn t).content (c :: cs) hs
      obtain ⟨hb1, hb2, hb3⟩ := budgetCheck_preserves cfg _ ha2 ho2 hs2
      exact ih _ (iters + 1) _ (t :: plans) hb1 hb2 hb3
        (fun q hq => by
          rcases List.mem_cons.mp hq with h1 | h1
          · rw [h1]; exact ha
          · exact hplans q h1) p hp

theorem runLoop_pairedOk (cfg : RunConfig) (modelFn : Transcript → ModelResponse)
    (hfresh : freshCalls modelFn)
    (hnt : ∀ tok n, triggerHolds cfg.trigger tok n = false) :
    ∀ (fuel : Nat) (t : Transcript) (iters hc : Nat) (plans : List Transcript),
      pairedOk t = true →
      (∀ p ∈ plans, pairedOk p = true) →
      (∀ p ∈ (runLoop cfg modelFn fuel t iters hc plans).planningTranscripts,
        pairedOk p = true) ∧
      pairedOk (runLoop cfg modelFn fuel t iters hc plans).transcript = true := by
  intro fuel
  induction fuel with
  | zero =>
    intro t iters hc plans hpo hplans
    constructor
    · intro p hp
      simp only [runLoop] at hp
      rw [List.mem_reverse] at hp
      exact hplans p hp
    · simpa [runLoop] using hpo
  | succ n ih =>
    intro t iters hc plans hpo hplans
    rw [runLoop]
    cases h : (modelFn t).capabilityCalls with
    | nil =>
      dsimp only
      constructor
      · intro p hp
        rw [List.mem_reverse] at hp
        rcases List.mem_cons.mp hp with h1 | h1
        · rw [h1]; exact hpo
        · exact hplans p h1
      · exact pairedOk_final_answer t (modelFn t).content hpo
    | cons c cs =>
      dsimp only
      have hf := hfresh t
      rw [h] at hf
      rw [budgetCheck_noTrigger cfg _ hnt]
      have hpo2 := pairedOk_exec_phase cfg.registry t (modelFn t).content (c :: cs) hpo
        hf.1 hf.2
      exact ih _ (iters + 1) _ (t :: plans) hpo2
        (fun q hq => by
          rcases List.mem_cons.mp hq with h1 | h1
          · rw [h1]; exact hpo
          · exact hplans q h1)

/-- C2 (amended): with clean initial transcripts and run-unique fresh call
ids, every transcript presented to the model at a new PLANNING step has no
unanswered CapabilityCall (in every run configuration); and in runs where the
condensation trigger never fires, every planning-step transcript and the
final transcript additionally satisfy the pairing invariant — each
capability-result references exactly one unanswered earlier call.  (With
condensation enabled the pairing half can fail: see the counterexample.) -/
theorem call_result_pairing (cfg : RunConfig) (modelFn : Transcript → ModelResponse)
    (t0 : Transcript) (hfresh : freshCalls modelFn) (hclean : cleanInitial t0) :
    (∀ p ∈ (runAgent cfg modelFn t0).planningTranscripts, allAnswered p = true) ∧
    ((∀ tok n, triggerHolds cfg.trigger tok n = false) →
      (∀ p ∈ (runAgent cfg modelFn t0).planningTranscripts, pairedOk p = true) ∧
      pairedOk (runAgent cfg modelFn t0).transcript = true) := by
  constructor
  · exact runLoop_planning_allAnswered cfg modelFn hfresh cfg.iterationCap t0 0 0 []
      (cleanInitial_allAnswered t0 hclean) (cleanInitial_ordered t0 hclean)
      (cleanInitial_sysNoCalls t0 hclean) (fun p hp => absurd hp (List.not_mem_nil p))
  · intro hnt
    exact runLoop_pairedOk cfg modelFn hfresh hnt cfg.iterationCap t0 0 0 []
      (cleanInitial_pairedOk t0 hclean) (fun p hp => absurd hp (List.not_mem_nil p))

/-- C2 counterexample to the claim as stated: a concrete run whose
condensation boundary separates call 1 from its result orphans that result —
the transcript presented at the third planning step (and the final
transcript) violates the pairing invariant. -/
theorem call_result_pairing_cex :
    ((runAgent cfgSplit modelSplit [userMsg "go"]).planningTranscripts.any
      (fun p => ! pairedOk p)) = true ∧
    pairedOk (runAgent cfgSplit modelSplit [userMsg "go"]).transcript = false :=
  ⟨rfl, rfl⟩

theorem call_result_pairing_witness :
    freshCalls noCallModel ∧ cleanInitial [userMsg "q"] ∧
    (∀ p ∈ (runAgent cfgE noCallModel [userMsg "q"]).planningTranscripts,
      allAnswered p = true) ∧
    pairedOk (runAgent cfgE noCallModel [userMsg "q"]).transcript = true := by
  have hf : freshCalls noCallModel := by
    intro t
    simp [noCallModel]
  have hc : cleanInitial [userMsg "q"] := by
    intro m hm
    rw [List.mem_singleton] at hm
    rw [hm]
    exact ⟨Or.inr rfl, rfl, rfl⟩
  have h := call_result_pairing cfgE noCallModel [userMsg "q"] hf hc
  exact ⟨hf, hc, h.1, (h.2 (fun tok n => rfl)).2⟩

end AgentRuntime
